import Mathlib

/-!
Verification of the SmartCleaner lead-cleaning pipeline
(`src/smartCleaner.py`): a shallow embedding of the record cleaner, the
field normalizers, the company enricher, the deduplicator and the batch
driver, together with theorems settling the specified properties.

Text is modelled as `List Char`.  The Python regex classes `\w` and `\s`
are modelled on their ASCII portion (`[a-zA-Z0-9_]` and
`[ \t\n\r\x0b\x0c]`); every concrete input used below is ASCII, where the
model coincides with Python exactly.  The two external capabilities the
code uses — the `phonenumbers` parser and the spaCy NLP model — are
parameters of the embedding (`php` and `nlp`): the repository only wraps
them, so the embedding quantifies over their behaviour.
-/

/-- Text, modelled as a list of characters. -/
abbrev Str := List Char

/-- The ASCII characters matched by Python's regex class `\s`. -/
def isSpc (c : Char) : Bool :=
  c = ' ' || c = '\t' || c = '\n' || c = '\x0d' || c = '\x0b' || c = '\x0c'

/-- The ASCII characters matched by Python's regex class `\w`. -/
def isWordChar (c : Char) : Bool :=
  c.isAlphanum || c = '_'

/-- The characters `_clean_str` keeps: the class `[\w\s.,\-@:/]` of
`re.sub(r'[^\w\s.,\-@:/]', '', text)` (line 82). -/
def allowedChar (c : Char) : Bool :=
  isWordChar c || isSpc c || c = '.' || c = ',' || c = '-' || c = '@' || c = ':' || c = '/'

/-- Model of `re.sub(r'\s+', ' ', text)` (line 81): every maximal whitespace run
becomes a single `' '` (emitted at the end of the run). -/
def collapse : List Char → List Char
  | [] => []
  | [c] => if isSpc c then [' '] else [c]
  | c :: d :: rest =>
    if isSpc c then
      if isSpc d then collapse (d :: rest)
      else ' ' :: collapse (d :: rest)
    else c :: collapse (d :: rest)

/-- The left half of Python `str.strip()`: drop leading whitespace. -/
def lstrip (l : List Char) : List Char := l.dropWhile isSpc

/-- The right half of Python `str.strip()`: drop trailing whitespace. -/
def rstrip : List Char → List Char
  | [] => []
  | c :: cs =>
    match rstrip cs with
    | [] => if isSpc c then [] else [c]
    | r => c :: r

/-- Python `str.strip()`. -/
def pstrip (l : List Char) : List Char := rstrip (lstrip l)

/-- The value part of `_clean_str` (lines 81-82): collapse whitespace
runs, strip, then delete the characters outside `[\w\s.,\-@:/]`.  Note
the deletion happens after the collapsing, so it can create new
whitespace runs. -/
def cleanStrCore (l : List Char) : List Char :=
  (pstrip (collapse l)).filter allowedChar

/-- Model of `SmartCleanerAgent._clean_str` (lines 78-83): `None` maps to `None`,
and an empty result is turned into `None`. -/
def cleanStr : Option Str → Option Str
  | none => none
  | some l =>
    let t := cleanStrCore l
    if t.isEmpty then none else some t

/-- No two adjacent whitespace characters. -/
def noAdjSpc : List Char → Bool
  | c :: d :: rest => !(isSpc c && isSpc d) && noAdjSpc (d :: rest)
  | _ => true

/-- Every whitespace character is a plain `' '`. -/
def spacesAreBlank (l : List Char) : Bool :=
  l.all fun c => !isSpc c || c = ' '

/-- The first character, if any, is not whitespace. -/
def headNotSpc : List Char → Bool
  | [] => true
  | c :: _ => !isSpc c

/-- The last character, if any, is not whitespace. -/
def lastNotSpc : List Char → Bool
  | [] => true
  | [c] => !isSpc c
  | _ :: c :: cs => lastNotSpc (c :: cs)

/-- Holds when `v` is either `None` or a string of allowed characters. -/
def GoodOpt (v : Option Str) : Prop :=
  ∀ s, v = some s → s.all allowedChar = true

/-- Python `str.lower()` on its ASCII portion, the behaviour of
`Char.toLower`. -/
def lowerS (s : Str) : Str := s.map Char.toLower

/-- The local-part class `[a-zA-Z0-9._%+-]` of the email regex (line 89). -/
def isLocalChar (c : Char) : Bool :=
  c.isAlpha || c.isDigit || c = '.' || c = '_' || c = '%' || c = '+' || c = '-'

/-- The domain class `[a-zA-Z0-9.-]` of the email regex (line 89). -/
def isDomChar (c : Char) : Bool :=
  c.isAlpha || c.isDigit || c = '.' || c = '-'

/-- Model of `re.match(r'^[a-zA-Z0-9._%+-]+@[a-zA-Z0-9.-]+\.[a-zA-Z]{2,}$', s)`:
the string is `local@domain.tld` with a non-empty local part over the
local class, a non-empty domain over the domain class, and a final
dot-separated TLD of at least two letters.  Because the TLD is
letters-only, the separating dot of any successful regex split is the
last dot, which makes the backtracking search equivalent to this direct
check. -/
def emailMatch (s : Str) : Bool :=
  let lp := s.takeWhile fun c => c ≠ '@'
  let rest := s.dropWhile fun c => c ≠ '@'
  match rest with
  | [] => false
  | _ :: dom =>
    let r := dom.reverse
    let tld := r.takeWhile fun c => c ≠ '.'
    match r.dropWhile fun c => c ≠ '.' with
    | [] => false
    | _ :: preRev =>
      (!lp.isEmpty) && lp.all isLocalChar &&
      (!preRev.isEmpty) && preRev.all isDomChar &&
      decide (2 ≤ tld.length) && tld.all Char.isAlpha

/-- Model of `SmartCleanerAgent._normalize_email` (lines 85-91): falsy input maps
to `None`; otherwise the input is lower-cased and stripped and kept only
if it matches the email regex. -/
def normEmail : Option Str → Option Str
  | none => none
  | some e =>
    if e.isEmpty then none
    else
      let s := pstrip (lowerS e)
      if emailMatch s then some s else none

/-- Model of `re.match(r'^[a-zA-Z]+://', url)` (line 108): a non-empty leading
letter run followed by `://`.  The letter class cannot match `:`, so the
greedy run is forced and the check is equivalent to taking the maximal
letter run. -/
def hasScheme (u : Str) : Bool :=
  let a := u.takeWhile Char.isAlpha
  let r := u.dropWhile Char.isAlpha
  (!a.isEmpty) && r.take 3 == [':', '/', '/']

/-- The host-unit class `[-\w.]` of the URL regex (line 110). -/
def isHostChar (c : Char) : Bool :=
  isWordChar c || c = '-' || c = '.'

/-- A hexadecimal digit, the class `[0-9a-fA-F]`. -/
def isHexDigit (c : Char) : Bool :=
  c.isDigit || ('a' ≤ c && c ≤ 'f') || ('A' ≤ c && c ≤ 'F')

/-- Model of `re.match(r'https?://(?:[-\w.]|(?:%[0-9a-fA-F]{2}))+\S*', url)`:
an unanchored prefix match, so it succeeds exactly when the string
starts with `http://` or `https://` followed by at least one host unit
(a `[-\w.]` character or a `%hh` escape); everything after is absorbed
by `\S*` matching the empty string. -/
def urlMatch (u : Str) : Bool :=
  let chk : Str → Bool := fun rest =>
    match rest with
    | [] => false
    | c :: cs =>
      isHostChar c ||
        (c = '%' && match cs with
          | a :: b :: _ => isHexDigit a && isHexDigit b
          | _ => false)
  if ['h', 't', 't', 'p', 's', ':', '/', '/'].isPrefixOf u then
    chk (u.drop 8)
  else if ['h', 't', 't', 'p', ':', '/', '/'].isPrefixOf u then
    chk (u.drop 7)
  else false

/-- Model of `SmartCleanerAgent._normalize_url` (lines 104-112): falsy input maps
to `None`; the input is stripped, `http://` is prepended when no scheme
is present, and the result is kept only if the URL regex matches a
prefix of it. -/
def normUrl : Option Str → Option Str
  | none => none
  | some u =>
    if u.isEmpty then none
    else
      let s := pstrip u
      let s := if hasScheme s then s else ['h', 't', 't', 'p', ':', '/', '/'] ++ s
      if urlMatch s then some s else none

/-- The `phonenumbers` capability: the composite
`parse`/`is_valid_number`/`format_number(E164)` call of lines 97-99,
`none` standing for an invalid or unparseable number. -/
abbrev PhoneFn := Str → Option Str

/-- Model of `SmartCleanerAgent._normalize_phone` (lines 93-102): falsy input
maps to `None`; otherwise the external capability decides. -/
def normPhone (php : PhoneFn) : Option Str → Option Str
  | none => none
  | some p => if p.isEmpty then none else php p

/-- The categorized extraction result built by `_extract_entities`
(lines 124-137). -/
structure Entities where
  persons : List Str
  organizations : List Str
  locations : List Str
  misc : List (Str × Str)
deriving DecidableEq, Repr

/-- The spaCy capability: `doc.ents` as an ordered list of
(text, label) pairs. -/
abbrev NlpFn := Str → List (Str × Str)

/-- Model of `SmartCleanerAgent._extract_entities` (lines 124-137): distribute
the recognized entities over the four buckets by label, preserving
order. -/
def extractEntities (f : NlpFn) (text : Str) : Entities :=
  (f text).foldl
    (fun acc ent =>
      if ent.2 = "PERSON".toList then
        { acc with persons := acc.persons ++ [ent.1] }
      else if ent.2 = "ORG".toList then
        { acc with organizations := acc.organizations ++ [ent.1] }
      else if ent.2 = "GPE".toList then
        { acc with locations := acc.locations ++ [ent.1] }
      else
        { acc with misc := acc.misc ++ [ent] })
    ⟨[], [], [], []⟩

/-- The nested address object of the cleaned record (lines 39-44). -/
structure Address where
  street : Option Str
  city : Option Str
  postal_code : Option Str
  country : Option Str
deriving DecidableEq, Repr

/-- The cleaned record of `clean_lead` (lines 30-51): a dict with these
keys, `entities` present only when added on line 60. -/
structure CanonicalLead where
  id : Str
  full_name : Option Str
  first_name : Option Str
  last_name : Option Str
  email : Option Str
  phone : Option Str
  company : Option Str
  job_title : Option Str
  address : Address
  linkedin_url : Option Str
  website_url : Option Str
  industry : Option Str
  company_size : Option Str
  last_updated : Str
  source : Option Str
  entities : Option Entities
deriving DecidableEq, Repr

/-- The raw nested address mapping.  Each field is `none` when the key
is absent, `some none` when present with value `null`, and
`some (some s)` when present with a string. -/
structure RawAddress where
  street : Option (Option Str) := none
  city : Option (Option Str) := none
  postal_code : Option (Option Str) := none
  country : Option (Option Str) := none
deriving DecidableEq, Repr

/-- A raw lead: an untyped JSON mapping with optional fields.  As in
`RawAddress`, `none` is an absent key, `some none` a key bound to
`null`, and `some (some _)` a key bound to a value.  `clean_lead` reads
no other key. -/
structure RawLead where
  full_name : Option (Option Str) := none
  email : Option (Option Str) := none
  phone : Option (Option Str) := none
  company : Option (Option Str) := none
  job_title : Option (Option Str) := none
  address : Option (Option RawAddress) := none
  linkedin_url : Option (Option Str) := none
  website_url : Option (Option Str) := none
  industry : Option (Option Str) := none
  company_size : Option (Option Str) := none
  source : Option (Option Str) := none
deriving DecidableEq, Repr

/-- Python truthiness of an optional string: `None` and `""` are falsy. -/
def truthy : Option Str → Bool
  | none => false
  | some s => !s.isEmpty

/-- Python `str.split(maxsplit=1)`: leading whitespace is skipped, the
first whitespace-free word is the first part, the whitespace run after
it is consumed, and the remainder (trailing whitespace kept) is the
second part when non-empty. -/
def splitMax1 (s : Str) : List Str :=
  let s1 := s.dropWhile isSpc
  if s1.isEmpty then []
  else
    let w := s1.takeWhile fun c => !isSpc c
    let rest := (s1.dropWhile fun c => !isSpc c).dropWhile isSpc
    if rest.isEmpty then [w] else [w, rest]

/-- The worker of Python `str.title()` on ASCII: upper-case a cased
character that follows a non-cased one, lower-case the rest. -/
def pyTitleGo : Bool → List Char → List Char
  | _, [] => []
  | prev, c :: cs =>
    if c.isAlpha then
      (if prev then Char.toLower c else Char.toUpper c) :: pyTitleGo true cs
    else c :: pyTitleGo false cs

/-- Python `str.title()` on its ASCII portion. -/
def pyTitle (s : Str) : Str := pyTitleGo false s

/-- Model of `parts[0].title()` of lines 53-55, `None` when `full_name` is falsy
or splits into no parts.  `first_name` is `None` before the split runs
(line 33), so the conditional assignment is this function of
`full_name`. -/
def firstNameOf : Option Str → Option Str
  | none => none
  | some s =>
    if s.isEmpty then none
    else
      match splitMax1 s with
      | w :: _ => some (pyTitle w)
      | [] => none

/-- Model of `parts[1].title()` of lines 56-57, `None` when there is no second
part; as with `firstNameOf`, the prior value is always `None` (line 34). -/
def lastNameOf : Option Str → Option Str
  | none => none
  | some s =>
    if s.isEmpty then none
    else
      match splitMax1 s with
      | _ :: rest :: _ => some (pyTitle rest)
      | _ => none

/-- Lines 52-57 of `clean_lead`: derive `first_name`/`last_name` from
the cleaned `full_name`. -/
def applyNameSplit (l : CanonicalLead) : CanonicalLead :=
  { l with first_name := firstNameOf l.full_name, last_name := lastNameOf l.full_name }

/-- Python's `in` on strings: `needle` occurs as a contiguous substring. -/
def hasSub (needle : Str) : Str → Bool
  | [] => needle.isEmpty
  | c :: cs => needle.isPrefixOf (c :: cs) || hasSub needle cs

/-- Model of `SmartCleanerAgent._enrich_company` (lines 114-122): overwrite
`industry` and `company_size` from case-sensitive substring markers of
the company name; first matching rule wins, nothing else is touched. -/
def enrichCompany (l : CanonicalLead) : CanonicalLead :=
  match l.company with
  | none => l
  | some name =>
    if !name.isEmpty then
      if hasSub "Tech".toList name || hasSub "Software".toList name then
        { l with industry := some "IT & Software".toList,
                 company_size := some "51-200 employees".toList }
      else if hasSub "Startup".toList name then
        { l with industry := some "Innovation & Technology".toList,
                 company_size := some "11-50 employees".toList }
      else l
    else l

/-- Model of `raw_lead.get("source", "Unknown")` (line 50): the default applies
only when the key is absent; a key bound to `null` is carried through. -/
def srcOf : Option (Option Str) → Option Str
  | none => some "Unknown".toList
  | some v => v

/-- Model of `raw_lead.get("address", {})` (lines 40-43) in the non-`null` case:
an absent key behaves as an empty mapping. -/
def rawAddr (r : RawLead) : RawAddress :=
  match r.address with
  | some (some a) => a
  | _ => {}

/-- The dict literal of lines 30-51 (with `first_name`/`last_name`
still `None` and no `entities` key), for a non-`null` raw address. -/
def baseLead (php : PhoneFn) (id now : Str) (r : RawLead) : CanonicalLead :=
  { id := id
    full_name := cleanStr r.full_name.join
    first_name := none
    last_name := none
    email := normEmail r.email.join
    phone := normPhone php r.phone.join
    company := cleanStr r.company.join
    job_title := cleanStr r.job_title.join
    address :=
      { street := cleanStr (rawAddr r).street.join
        city := cleanStr (rawAddr r).city.join
        postal_code := cleanStr (rawAddr r).postal_code.join
        country := cleanStr (rawAddr r).country.join }
    linkedin_url := normUrl r.linkedin_url.join
    website_url := normUrl r.website_url.join
    industry := cleanStr r.industry.join
    company_size := cleanStr r.company_size.join
    last_updated := now ++ "Z".toList
    source := srcOf r.source
    entities := none }

/-- Lines 59-60 of `clean_lead`: attach `entities` when the cleaned job
title is truthy and the NLP capability is loaded. -/
def applyEntities (nlp : Option NlpFn) (l : CanonicalLead) : CanonicalLead :=
  if truthy l.job_title then
    match nlp with
    | some f => { l with entities := some (extractEntities f (l.job_title.getD [])) }
    | none => l
  else l

/-- The full record built by `clean_lead` on the non-crashing path:
the dict literal, then the name split, then the company enrichment,
then the entity attachment, in the order of lines 30-60. -/
def buildLead (php : PhoneFn) (nlp : Option NlpFn) (id now : Str) (r : RawLead) :
    CanonicalLead :=
  applyEntities nlp (enrichCompany (applyNameSplit (baseLead php id now r)))

/-- Model of `SmartCleanerAgent.clean_lead` (lines 29-61).  When the raw mapping
binds `address` to `null`, `raw_lead.get("address", {})` returns `None`
and `None.get("street")` raises `AttributeError` (line 40): that path is
an `Except.error`.  `id` is the fresh `uuid4` and `now` the
`datetime.now().isoformat()` of this call. -/
def cleanLead (php : PhoneFn) (nlp : Option NlpFn) (id now : Str) (r : RawLead) :
    Except String CanonicalLead :=
  if r.address = some none then
    .error "AttributeError: NoneType object has no attribute get"
  else
    .ok (buildLead php nlp id now r)

/-- Re-reading a cleaned record as a raw mapping: every key of the dict
that `clean_lead` reads is present (`id`, `first_name`, `last_name`,
`last_updated` and `entities` are ignored by a second clean). -/
def toRaw (l : CanonicalLead) : RawLead :=
  { full_name := some l.full_name
    email := some l.email
    phone := some l.phone
    company := some l.company
    job_title := some l.job_title
    address := some (some
      { street := some l.address.street
        city := some l.address.city
        postal_code := some l.address.postal_code
        country := some l.address.country })
    linkedin_url := some l.linkedin_url
    website_url := some l.website_url
    industry := some l.industry
    company_size := some l.company_size
    source := some l.source }

/-- The net effect of `_enrich_company` on `industry`. -/
def indOf (company ind : Option Str) : Option Str :=
  match company with
  | none => ind
  | some name =>
    if !name.isEmpty then
      if hasSub "Tech".toList name || hasSub "Software".toList name then
        some "IT & Software".toList
      else if hasSub "Startup".toList name then
        some "Innovation & Technology".toList
      else ind
    else ind

/-- The net effect of `_enrich_company` on `company_size`. -/
def sizOf (company siz : Option Str) : Option Str :=
  match company with
  | none => siz
  | some name =>
    if !name.isEmpty then
      if hasSub "Tech".toList name || hasSub "Software".toList name then
        some "51-200 employees".toList
      else if hasSub "Startup".toList name then
        some "11-50 employees".toList
      else siz
    else siz

/-- The net effect of lines 59-60 on `entities`, given that the key is
not yet present. -/
def entOf (nlp : Option NlpFn) (jt : Option Str) : Option Entities :=
  if truthy jt then
    match nlp with
    | some f => some (extractEntities f (jt.getD []))
    | none => none
  else none

/-- A Python value that can sit in a lead dict, as far as `deduplicate`
is concerned: `None`, a string, the nested address dict or the entities
dict. -/
inductive DVal where
  | dnone : DVal
  | dstr : Str → DVal
  | daddr : Address → DVal
  | dents : Entities → DVal
deriving DecidableEq, Repr

/-- A lead as `deduplicate` sees it: a mapping from key to value
(`lead.get(f, '')`); absence of a key is absence from the list. -/
abbrev DRec := List (Str × DVal)

/-- Python `repr` of an optional string as it appears inside a dict
repr: `None`, or the string in single quotes (escaping, which no claim
exercises, is not modelled). -/
def reprOptStr : Option Str → Str
  | none => "None".toList
  | some s => '\x27' :: s ++ ['\x27']

/-- Python `str` of the nested address dict (only reachable when
`deduplicate` is keyed on `address`, which no caller does). -/
def reprAddr (a : Address) : Str :=
  "\x7bstreet: ".toList ++ reprOptStr a.street ++
  ", city: ".toList ++ reprOptStr a.city ++
  ", postal_code: ".toList ++ reprOptStr a.postal_code ++
  ", country: ".toList ++ reprOptStr a.country ++ "\x7d".toList

/-- Python `str()` of a `DVal`: `str(None) = 'None'`, a string is
itself, a dict shows its repr. -/
def pyStr : DVal → Str
  | .dnone => "None".toList
  | .dstr s => s
  | .daddr a => reprAddr a
  | .dents _ => "entities".toList

/-- One component of the composite key:
`str(lead.get(f, '')).lower()` (line 72). -/
def dedupComp (r : DRec) (f : Str) : Str :=
  lowerS (pyStr ((r.lookup f).getD (.dstr [])))

/-- Python `"_".join`. -/
def joinU : List Str → Str
  | [] => []
  | [s] => s
  | s :: rest => s ++ '_' :: joinU rest

/-- The composite key of line 72. -/
def dedupKey (keys : List Str) (r : DRec) : Str :=
  joinU (keys.map (dedupComp r))

/-- The loop of lines 71-75: a lead is appended (and its key recorded)
only when its key is truthy (non-empty) and unseen. -/
def dedupGo (keys : List Str) : List DRec → List Str → List DRec
  | [], _ => []
  | l :: ls, seen =>
    let k := dedupKey keys l
    if !k.isEmpty && !seen.contains k then
      l :: dedupGo keys ls (k :: seen)
    else
      dedupGo keys ls seen

/-- Model of `SmartCleanerAgent.deduplicate` (lines 66-76), with the
`key_fields=None` default of line 67-68. -/
def deduplicate (leads : List DRec) (key_fields : Option (List Str)) : List DRec :=
  dedupGo (key_fields.getD ["email".toList]) leads []

/-- The cleaned record read back as the dict `deduplicate` and
`json.dump` see: the keys of lines 30-51 in insertion order, plus
`entities` when line 60 ran. -/
def leadToDRec (l : CanonicalLead) : DRec :=
  [("id".toList, .dstr l.id),
   ("full_name".toList, l.full_name.elim .dnone .dstr),
   ("first_name".toList, l.first_name.elim .dnone .dstr),
   ("last_name".toList, l.last_name.elim .dnone .dstr),
   ("email".toList, l.email.elim .dnone .dstr),
   ("phone".toList, l.phone.elim .dnone .dstr),
   ("company".toList, l.company.elim .dnone .dstr),
   ("job_title".toList, l.job_title.elim .dnone .dstr),
   ("address".toList, .daddr l.address),
   ("linkedin_url".toList, l.linkedin_url.elim .dnone .dstr),
   ("website_url".toList, l.website_url.elim .dnone .dstr),
   ("industry".toList, l.industry.elim .dnone .dstr),
   ("company_size".toList, l.company_size.elim .dnone .dstr),
   ("last_updated".toList, .dstr l.last_updated),
   ("source".toList, l.source.elim .dnone .dstr)] ++
  (match l.entities with
   | none => []
   | some e => [("entities".toList, .dents e)])

/-- A cleaned lead dict has 15 keys and is never falsy, so the filter of
the comprehension on line 64 always passes. -/
def leadTruthy (_ : CanonicalLead) : Bool := true

/-- Model of `SmartCleanerAgent.clean_dataset` (lines 63-64):
`[self.clean_lead(lead) for lead in leads if self.clean_lead(lead)]`.
`clean_lead` runs twice per element — once for the filter, once for the
value — so element `i` consumes the fresh ids `2*i` and `2*i+1`; an
exception from either call propagates. -/
def cleanDatasetGo (php : PhoneFn) (nlp : Option NlpFn) (ids : Nat → Str) (now : Str) :
    List RawLead → Nat → Except String (List CanonicalLead)
  | [], _ => .ok []
  | r :: rs, i => do
    let t ← cleanLead php nlp (ids (2 * i)) now r
    if leadTruthy t then
      let v ← cleanLead php nlp (ids (2 * i + 1)) now r
      let rest ← cleanDatasetGo php nlp ids now rs (i + 1)
      pure (v :: rest)
    else
      cleanDatasetGo php nlp ids now rs (i + 1)

/-- Model of `SmartCleanerAgent.clean_dataset` over a whole list. -/
def cleanDataset (php : PhoneFn) (nlp : Option NlpFn) (ids : Nat → Str) (now : Str)
    (leads : List RawLead) : Except String (List CanonicalLead) :=
  cleanDatasetGo php nlp ids now leads 0

/-- What `json.load` gave for one file: a single object is a one-lead
batch, an array a multi-lead batch (lines 154-157). -/
inductive JsonContent where
  | jobj : RawLead → JsonContent
  | jarr : List RawLead → JsonContent
deriving Repr

/-- One file of the raw directory: its name and either its parsed JSON
content or the message of the `json.load` failure. -/
structure RawFile where
  name : Str
  content : Except Str JsonContent

/-- Model of `SmartCleanerAgent.process_all_json` (lines 139-162): every `.json`
file is loaded; a parse failure prints a diagnostic and `continue`s; a
parsed file is cleaned, deduplicated with the default key and written
under the same name.  `ids k` is the uuid stream for file `k`; any
exception other than the caught parse failure propagates. -/
def processGo (php : PhoneFn) (nlp : Option NlpFn) (ids : Nat → Nat → Str) (now : Str) :
    List RawFile → Nat → Except String (List (Str × List DRec))
  | [], _ => .ok []
  | f :: fs, k =>
    if ".json".toList.isSuffixOf f.name then
      match f.content with
      | .error _ => processGo php nlp ids now fs (k + 1)
      | .ok c => do
        let leads := match c with
          | .jobj r => [r]
          | .jarr rs => rs
        let cleaned ← cleanDataset php nlp (ids k) now leads
        let deduped := deduplicate (cleaned.map leadToDRec) none
        let rest ← processGo php nlp ids now fs (k + 1)
        pure ((f.name, deduped) :: rest)
    else processGo php nlp ids now fs (k + 1)

/-- Model of `SmartCleanerAgent.process_all_json` over a directory listing. -/
def processAllJson (php : PhoneFn) (nlp : Option NlpFn) (ids : Nat → Nat → Str)
    (now : Str) (files : List RawFile) : Except String (List (Str × List DRec)) :=
  processGo php nlp ids now files 0

/-- The raw string fields that `_clean_str` processes are made of
allowed characters (so the deletion step of `_clean_str` is inert on
them). -/
def GoodRaw (r : RawLead) : Prop :=
  GoodOpt r.full_name.join ∧ GoodOpt r.company.join ∧ GoodOpt r.job_title.join ∧
  GoodOpt r.industry.join ∧ GoodOpt r.company_size.join ∧
  GoodOpt (rawAddr r).street.join ∧ GoodOpt (rawAddr r).city.join ∧
  GoodOpt (rawAddr r).postal_code.join ∧ GoodOpt (rawAddr r).country.join

/-- The nested address dict read back as a key/value list. -/
def addrToDRec (a : Address) : DRec :=
  [("street".toList, a.street.elim .dnone .dstr),
   ("city".toList, a.city.elim .dnone .dstr),
   ("postal_code".toList, a.postal_code.elim .dnone .dstr),
   ("country".toList, a.country.elim .dnone .dstr)]

/-- A cleaned lead whose company name carries the `Tech` marker, for the
enrichment witness. -/
def sampleTechLead : CanonicalLead :=
  { id := [], full_name := none, first_name := none, last_name := none, email := none,
    phone := none, company := some "Acme Tech Inc".toList, job_title := none,
    address := ⟨none, none, none, none⟩, linkedin_url := none, website_url := none,
    industry := none, company_size := none, last_updated := [], source := none,
    entities := none }

theorem noAdjSpc_tail {c : Char} {cs : List Char} (h : noAdjSpc (c :: cs) = true) :
    noAdjSpc cs = true := by
  cases cs with
  | nil => rfl
  | cons d rest => exact (Bool.and_eq_true_iff.mp h).2

theorem mem_collapse {c : Char} : ∀ {l : List Char}, c ∈ collapse l → c ∈ l ∨ c = ' '
  | [], h => by simp [collapse] at h
  | [d], h => by
    by_cases hd : isSpc d
    · simp [collapse, hd] at h; right; exact h
    · simp [collapse, hd] at h; left; simp [h]
  | d :: e :: rest, h => by
    by_cases hd : isSpc d
    · by_cases he : isSpc e
      · simp only [collapse, hd, he, if_pos] at h
        rcases mem_collapse h with h' | h'
        · left; exact List.mem_cons_of_mem _ h'
        · right; exact h'
      · simp only [collapse, hd, he, if_pos] at h
        rcases List.mem_cons.mp h with h' | h'
        · right; exact h'
        · rcases mem_collapse h' with h'' | h''
          · left; exact List.mem_cons_of_mem _ h''
          · right; exact h''
    · simp only [collapse, hd] at h
      rcases List.mem_cons.mp h with h' | h'
      · left; exact h' ▸ List.mem_cons_self _ _
      · rcases mem_collapse h' with h'' | h''
        · left; exact List.mem_cons_of_mem _ h''
        · right; exact h''

theorem collapse_spacesAreBlank : ∀ l : List Char, spacesAreBlank (collapse l) = true := by
  intro l
  simp only [spacesAreBlank, List.all_eq_true]
  induction l with
  | nil => intro c hc; simp [collapse] at hc
  | cons d rest ih =>
    intro c hc
    cases rest with
    | nil =>
      by_cases hd : isSpc d
      · simp [collapse, hd] at hc; simp [hc, isSpc]
      · simp [collapse, hd] at hc; subst hc; simp [hd]
    | cons e rest' =>
      by_cases hd : isSpc d
      · by_cases he : isSpc e
        · simp only [collapse, hd, he, if_pos] at hc
          exact ih c hc
        · simp only [collapse, hd, he, if_pos, if_neg] at hc
          rcases List.mem_cons.mp hc with h' | h'
          · simp [h', isSpc]
          · exact ih c h'
      · simp only [collapse, hd, Bool.false_eq_true, if_neg] at hc
        rcases List.mem_cons.mp hc with h' | h'
        · subst h'; simp [hd]
        · exact ih c h'

theorem collapse_cons_nonspc {d : Char} (rest : List Char) (hd : isSpc d = false) :
    collapse (d :: rest) = d :: collapse rest := by
  cases rest with
  | nil => simp [collapse, hd]
  | cons e rest' => simp [collapse, hd]

theorem collapse_noAdj : ∀ l : List Char, noAdjSpc (collapse l) = true := by
  intro l
  induction l with
  | nil => simp [collapse, noAdjSpc]
  | cons d rest ih =>
    cases rest with
    | nil =>
      by_cases hd : isSpc d <;> simp [collapse, hd, noAdjSpc]
    | cons e rest' =>
      by_cases hd : isSpc d
      · by_cases he : isSpc e
        · simpa [collapse, hd, he] using ih
        · have he' : isSpc e = false := by simpa using he
          rw [show collapse (d :: e :: rest') = ' ' :: collapse (e :: rest') by simp [collapse, hd, he]]
          rw [collapse_cons_nonspc rest' he']
          rw [collapse_cons_nonspc rest' he'] at ih
          simp [noAdjSpc, he', ih]
      · rw [show collapse (d :: e :: rest') = d :: collapse (e :: rest') by simp [collapse, hd]]
        cases hres : collapse (e :: rest') with
        | nil => simp [noAdjSpc]
        | cons x xs =>
          rw [hres] at ih
          simp [noAdjSpc, hd, ih]

theorem collapse_fix : ∀ l : List Char, spacesAreBlank l = true → noAdjSpc l = true →
    collapse l = l := by
  intro l
  induction l with
  | nil => intro _ _; rfl
  | cons d rest ih =>
    intro hb ha
    cases rest with
    | nil =>
      by_cases hd : isSpc d
      · have : d = ' ' := by
          simp [spacesAreBlank, hd] at hb; exact hb
        simp [collapse, hd, this]
      · simp [collapse, hd]
    | cons e rest' =>
      have hb' : spacesAreBlank (e :: rest') = true := by
        simp only [spacesAreBlank, List.all_cons, Bool.and_eq_true] at hb ⊢
        exact hb.2
      have ha' : noAdjSpc (e :: rest') = true := noAdjSpc_tail ha
      by_cases hd : isSpc d
      · have he : isSpc e = false := by
          simp only [noAdjSpc, Bool.and_eq_true, Bool.not_eq_true'] at ha
          rcases Bool.and_eq_false_iff.mp ha.1 with h | h
          · rw [hd] at h; cases h
          · exact h
        have hdb : d = ' ' := by
          simp only [spacesAreBlank, List.all_cons, Bool.and_eq_true] at hb
          have := hb.1
          simp [hd] at this
          exact this
        simp [collapse, hd, he, hdb, ih hb' ha']
      · simp [collapse, hd, ih hb' ha']

theorem lstrip_headNotSpc : ∀ l : List Char, headNotSpc (lstrip l) = true := by
  intro l
  induction l with
  | nil => rfl
  | cons c cs ih =>
    by_cases hc : isSpc c
    · simpa [lstrip, List.dropWhile, hc] using ih
    · simp [lstrip, List.dropWhile, hc, headNotSpc]

theorem lstrip_fix {l : List Char} (h : headNotSpc l = true) : lstrip l = l := by
  cases l with
  | nil => rfl
  | cons c cs =>
    simp only [headNotSpc, Bool.not_eq_true'] at h
    simp [lstrip, List.dropWhile, h]

theorem lstrip_noAdj {l : List Char} (h : noAdjSpc l = true) : noAdjSpc (lstrip l) = true := by
  induction l with
  | nil => rfl
  | cons c cs ih =>
    by_cases hc : isSpc c
    · simp only [lstrip, List.dropWhile, hc]
      exact ih (noAdjSpc_tail h)
    · simpa [lstrip, List.dropWhile, hc] using h

theorem rstrip_sublist : ∀ l : List Char, (rstrip l).Sublist l := by
  intro l
  induction l with
  | nil => simp [rstrip]
  | cons c cs ih =>
    rw [rstrip]
    cases hres : rstrip cs with
    | nil =>
      by_cases hc : isSpc c
      · simp [hc]
      · simp [hc]
    | cons x xs =>
      rw [hres] at ih
      exact ih.cons₂ c

theorem rstrip_lastNotSpc : ∀ l : List Char, lastNotSpc (rstrip l) = true := by
  intro l
  induction l with
  | nil => rfl
  | cons c cs ih =>
    rw [rstrip]
    cases hres : rstrip cs with
    | nil =>
      by_cases hc : isSpc c <;> simp [hc, lastNotSpc]
    | cons x xs =>
      rw [hres] at ih
      simpa [lastNotSpc] using ih

theorem rstrip_fix : ∀ l : List Char, lastNotSpc l = true → rstrip l = l := by
  intro l
  induction l with
  | nil => intro _; rfl
  | cons c cs ih =>
    intro h
    cases cs with
    | nil =>
      simp only [lastNotSpc, Bool.not_eq_true'] at h
      simp [rstrip, h]
    | cons d ds =>
      have h' : lastNotSpc (d :: ds) = true := by simpa [lastNotSpc] using h
      rw [rstrip, ih h']

theorem rstrip_cons_shape (c : Char) (cs : List Char) :
    rstrip (c :: cs) = [] ∨ ∃ tl, rstrip (c :: cs) = c :: tl := by
  rw [rstrip]
  cases rstrip cs with
  | nil =>
    by_cases hc : isSpc c
    · left; simp [hc]
    · right; exact ⟨[], by simp [hc]⟩
  | cons x xs => right; exact ⟨x :: xs, rfl⟩

theorem rstrip_keepHead {l : List Char} (h : headNotSpc l = true) :
    headNotSpc (rstrip l) = true := by
  cases l with
  | nil => rfl
  | cons c cs =>
    rcases rstrip_cons_shape c cs with h' | ⟨tl, h'⟩
    · simp [h', headNotSpc]
    · rw [h']
      simpa [headNotSpc] using h

theorem rstrip_noAdj : ∀ l : List Char, noAdjSpc l = true → noAdjSpc (rstrip l) = true := by
  intro l
  induction l with
  | nil => intro _; rfl
  | cons c cs ih =>
    intro h
    rw [rstrip]
    cases hres : rstrip cs with
    | nil =>
      by_cases hc : isSpc c <;> simp [hc, noAdjSpc]
    | cons x xs =>
      have htl : noAdjSpc (x :: xs) = true := by
        rw [← hres]; exact ih (noAdjSpc_tail h)
      cases cs with
      | nil => simp [rstrip] at hres
      | cons d ds =>
        rcases rstrip_cons_shape d ds with h' | ⟨tl, h'⟩
        · rw [h'] at hres; cases hres
        · rw [h'] at hres
          have hdx : d = x := (List.cons.inj hres).1
          subst hdx
          have hcd : (!(isSpc c && isSpc d)) = true := by
            simp only [noAdjSpc] at h
            exact (Bool.and_eq_true_iff.mp h).1
          simp only [noAdjSpc]
          rw [htl, hcd]
          rfl

theorem mem_lstrip {c : Char} {l : List Char} (h : c ∈ lstrip l) : c ∈ l :=
  (List.dropWhile_sublist isSpc).subset h

theorem mem_rstrip {c : Char} {l : List Char} (h : c ∈ rstrip l) : c ∈ l :=
  (rstrip_sublist l).subset h

theorem mem_pstrip {c : Char} {l : List Char} (h : c ∈ pstrip l) : c ∈ l :=
  mem_lstrip (mem_rstrip h)

theorem pstrip_headNotSpc (l : List Char) : headNotSpc (pstrip l) = true :=
  rstrip_keepHead (lstrip_headNotSpc l)

theorem pstrip_lastNotSpc (l : List Char) : lastNotSpc (pstrip l) = true :=
  rstrip_lastNotSpc (lstrip l)

theorem pstrip_fix {l : List Char} (h1 : headNotSpc l = true) (h2 : lastNotSpc l = true) :
    pstrip l = l := by
  unfold pstrip
  rw [lstrip_fix h1, rstrip_fix l h2]

theorem pstrip_idem (l : List Char) : pstrip (pstrip l) = pstrip l :=
  pstrip_fix (pstrip_headNotSpc l) (pstrip_lastNotSpc l)

theorem pstrip_noAdj {l : List Char} (h : noAdjSpc l = true) : noAdjSpc (pstrip l) = true :=
  rstrip_noAdj _ (lstrip_noAdj h)

theorem spacesAreBlank_of_subset {l l' : List Char} (hsub : ∀ c ∈ l', c ∈ l)
    (h : spacesAreBlank l = true) : spacesAreBlank l' = true := by
  simp only [spacesAreBlank, List.all_eq_true] at h ⊢
  exact fun c hc => h c (hsub c hc)

/-- On input made of allowed characters, the deletion step of
`_clean_str` deletes nothing, so the cleaned value is the stripped,
whitespace-collapsed input. -/
theorem cleanStrCore_of_allowed {l : List Char} (h : l.all allowedChar = true) :
    cleanStrCore l = pstrip (collapse l) := by
  unfold cleanStrCore
  rw [List.filter_eq_self]
  intro c hc
  rcases mem_collapse (mem_pstrip hc) with h' | h'
  · exact (List.all_eq_true.mp h) c h'
  · subst h'; rfl

/-- The stripped, whitespace-collapsed form of a string is a fixed point
of `_clean_str`'s value part, provided all its characters are allowed. -/
theorem cleanStrCore_fix {t : List Char} (hall : t.all allowedChar = true)
    (hb : spacesAreBlank t = true) (ha : noAdjSpc t = true)
    (hh : headNotSpc t = true) (hl : lastNotSpc t = true) :
    cleanStrCore t = t := by
  rw [cleanStrCore_of_allowed hall, collapse_fix t hb ha, pstrip_fix hh hl]

theorem cleanStrCore_idem {l : List Char} (h : l.all allowedChar = true) :
    cleanStrCore (cleanStrCore l) = cleanStrCore l := by
  have hall : (cleanStrCore l).all allowedChar = true := by
    simp only [cleanStrCore, List.all_eq_true]
    intro c hc
    exact List.of_mem_filter hc
  rw [cleanStrCore_of_allowed h] at hall ⊢
  exact cleanStrCore_fix hall
    (spacesAreBlank_of_subset (fun c hc => mem_pstrip hc) (collapse_spacesAreBlank l))
    (pstrip_noAdj (collapse_noAdj l))
    (pstrip_headNotSpc _) (pstrip_lastNotSpc _)

/-- Idempotence: `_clean_str` is idempotent on inputs whose characters all lie in the
kept class (the deletion step then removes nothing). -/
theorem cleanStr_idem {v : Option Str} (h : GoodOpt v) :
    cleanStr (cleanStr v) = cleanStr v := by
  cases v with
  | none => rfl
  | some l =>
    have hl : l.all allowedChar = true := h l rfl
    show cleanStr (cleanStr (some l)) = cleanStr (some l)
    unfold cleanStr
    simp only
    by_cases he : (cleanStrCore l).isEmpty
    · simp [he]
    · simp only [he, if_neg, Bool.false_eq_true, not_false_iff, if_false]
      rw [cleanStrCore_idem hl]
      simp [he]

/-- Every non-`None` output of `_clean_str` is made of allowed characters. -/
theorem cleanStr_allowed {v : Option Str} {t : Str} (h : cleanStr v = some t) :
    t.all allowedChar = true := by
  cases v with
  | none => cases h
  | some l =>
    unfold cleanStr at h
    simp only at h
    by_cases he : (cleanStrCore l).isEmpty
    · simp [he] at h
    · simp only [he, Bool.false_eq_true, not_false_iff, if_false, Option.some.injEq] at h
      subst h
      simp only [cleanStrCore, List.all_eq_true]
      intro c hc
      exact List.of_mem_filter hc

theorem toLower_idem (c : Char) : Char.toLower (Char.toLower c) = Char.toLower c := by
  unfold Char.toLower
  by_cases h : c.toNat ≥ 65 ∧ c.toNat ≤ 90
  · rw [if_pos h]
    obtain ⟨h1, h2⟩ := h
    set n := c.toNat with hn
    interval_cases n <;> decide
  · rw [if_neg h, if_neg h]

theorem lowerS_idem (s : Str) : lowerS (lowerS s) = lowerS s := by
  unfold lowerS
  rw [List.map_map]
  exact List.map_congr_left fun c _ => toLower_idem c

theorem emailMatch_nil : emailMatch [] = false := rfl

theorem lowerS_fix_of_image {o x : Str} (h : o = pstrip (lowerS x)) : lowerS o = o := by
  unfold lowerS
  have step : List.map Char.toLower o = List.map id o := by
    apply List.map_congr_left
    intro c hc
    rw [h] at hc
    have := mem_pstrip hc
    simp only [lowerS, List.mem_map] at this
    obtain ⟨d, _, hd⟩ := this
    rw [← hd, toLower_idem d]
    rfl
  rw [step, List.map_id]

/-- Idempotence: `_normalize_email` is idempotent: its non-`None` outputs are already
lower-case, stripped and matching, so a second pass returns them
unchanged. -/
theorem normEmail_idem (v : Option Str) : normEmail (normEmail v) = normEmail v := by
  cases v with
  | none => rfl
  | some e =>
    show normEmail (normEmail (some e)) = normEmail (some e)
    unfold normEmail
    simp only
    by_cases he : e.isEmpty
    · simp [he]
    · simp only [he, Bool.false_eq_true, not_false_iff, if_false]
      by_cases hm : emailMatch (pstrip (lowerS e))
      · simp only [hm, if_pos, if_true]
        set o := pstrip (lowerS e) with ho
        have hfix : lowerS o = o := lowerS_fix_of_image ho
        have hps : pstrip o = o := by
          rw [ho]; exact pstrip_idem (lowerS e)
        have hoe : o.isEmpty = false := by
          cases hoo : o with
          | nil => rw [hoo] at hm; rw [emailMatch_nil] at hm; cases hm
          | cons _ _ => rfl
        simp only [hoe, Bool.false_eq_true, not_false_iff, if_false]
        rw [hfix, hps]
        simp [hm]
      · simp [hm]

theorem normPhone_idem {php : PhoneFn}
    (hphp : ∀ s t, php s = some t → php t = some t ∧ t ≠ []) (v : Option Str) :
    normPhone php (normPhone php v) = normPhone php v := by
  cases v with
  | none => rfl
  | some p =>
    show normPhone php (normPhone php (some p)) = normPhone php (some p)
    unfold normPhone
    simp only
    by_cases hp : p.isEmpty
    · simp [hp]
    · simp only [hp, Bool.false_eq_true, not_false_iff, if_false]
      cases hres : php p with
      | none => rfl
      | some t =>
        obtain ⟨ht, hne⟩ := hphp p t hres
        have hte : t.isEmpty = false := by
          cases t with
          | nil => exact absurd rfl hne
          | cons _ _ => rfl
        simp [hte, ht]

theorem lastNotSpc_append_right (l1 : List Char) {l2 : List Char} (h2 : l2 ≠ []) :
    lastNotSpc (l1 ++ l2) = lastNotSpc l2 := by
  induction l1 with
  | nil => rfl
  | cons c rest ih =>
    have hne : rest ++ l2 ≠ [] := by
      intro hcon
      rcases List.append_eq_nil.mp hcon with ⟨_, h⟩
      exact h2 h
    cases hr : rest ++ l2 with
    | nil => exact absurd hr hne
    | cons d ds =>
      show lastNotSpc (c :: rest ++ l2) = lastNotSpc l2
      rw [List.cons_append, hr]
      show lastNotSpc (d :: ds) = lastNotSpc l2
      rw [← hr, ih]

theorem hasScheme_http (x : Str) :
    hasScheme (['h', 't', 't', 'p', ':', '/', '/'] ++ x) = true := by
  simp [hasScheme, List.takeWhile, List.dropWhile]

theorem urlMatch_ne_nil {u : Str} (h : urlMatch u = true) : u ≠ [] := by
  intro hcon
  subst hcon
  simp [urlMatch, List.isPrefixOf] at h

/-- Every non-`None` output of `_normalize_url` is stripped, carries a
scheme, matches the URL regex and is non-empty. -/
theorem normUrl_some_props {u o : Str} (h : normUrl (some u) = some o) :
    pstrip o = o ∧ hasScheme o = true ∧ urlMatch o = true ∧ o.isEmpty = false := by
  unfold normUrl at h
  simp only at h
  by_cases hu : u.isEmpty
  · simp [hu] at h
  · simp only [hu, Bool.false_eq_true, not_false_iff, if_false] at h
    by_cases hs : hasScheme (pstrip u)
    · simp only [hs, if_pos, if_true] at h
      by_cases hm : urlMatch (pstrip u)
      · simp only [hm, if_pos, if_true, Option.some.injEq] at h
        subst h
        refine ⟨pstrip_idem u, hs, hm, ?_⟩
        cases hoo : pstrip u with
        | nil => rw [hoo] at hm; exact absurd rfl (urlMatch_ne_nil hm)
        | cons _ _ => rfl
      · simp [hm] at h
    · simp only [hs, Bool.false_eq_true, not_false_iff, if_false] at h
      simp only [List.cons_append, List.nil_append] at h
      by_cases hm : urlMatch ('h' :: 't' :: 't' :: 'p' :: ':' :: '/' :: '/' :: pstrip u)
      · simp only [hm, if_pos, if_true, Option.some.injEq] at h
        subst h
        refine ⟨?_, hasScheme_http (pstrip u), hm, rfl⟩
        apply pstrip_fix
        · rfl
        · show lastNotSpc (['h', 't', 't', 'p', ':', '/', '/'] ++ pstrip u) = true
          cases hx : pstrip u with
          | nil => rfl
          | cons d ds =>
            rw [lastNotSpc_append_right _ (by simp [hx])]
            rw [← hx]
            exact pstrip_lastNotSpc u
      · simp [hm] at h

/-- A stripped, scheme-carrying, regex-matching non-empty string is a
fixed point of `_normalize_url`. -/
theorem normUrl_fixed {o : Str} (h1 : pstrip o = o) (h2 : hasScheme o = true)
    (h3 : urlMatch o = true) (h4 : o.isEmpty = false) : normUrl (some o) = some o := by
  unfold normUrl
  simp only [h4, Bool.false_eq_true, not_false_iff, if_false, h1, h2, if_pos, if_true, h3]

/-- Idempotence: `_normalize_url` is idempotent: a non-`None` output is stripped,
carries a scheme and still matches, so a second pass returns it
unchanged. -/
theorem normUrl_idem (v : Option Str) : normUrl (normUrl v) = normUrl v := by
  cases v with
  | none => rfl
  | some u =>
    cases hres : normUrl (some u) with
    | none => rfl
    | some o =>
      obtain ⟨h1, h2, h3, h4⟩ := normUrl_some_props hres
      exact normUrl_fixed h1 h2 h3 h4

theorem enrichCompany_eq (l : CanonicalLead) :
    enrichCompany l =
      { l with industry := indOf l.company l.industry,
               company_size := sizOf l.company l.company_size } := by
  obtain ⟨i0, fn, f1, l1, em, ph, co, jt, ad, lu, wu, ind, csz, lup, src, ent⟩ := l
  cases co with
  | none => rfl
  | some name =>
    simp only [enrichCompany, indOf, sizOf]
    by_cases h1 : name.isEmpty
    · simp [h1]
    · by_cases h2 : hasSub ['T', 'e', 'c', 'h'] name
      · simp [h1, h2]
      · by_cases h3 : hasSub ['S', 'o', 'f', 't', 'w', 'a', 'r', 'e'] name
        · simp [h1, h2, h3]
        · by_cases h4 : hasSub ['S', 't', 'a', 'r', 't', 'u', 'p'] name
          · simp [h1, h2, h3, h4]
          · simp [h1, h2, h3, h4]

theorem applyEntities_eq {l : CanonicalLead} (nlp : Option NlpFn)
    (h : l.entities = none) :
    applyEntities nlp l = { l with entities := entOf nlp l.job_title } := by
  unfold applyEntities entOf
  by_cases ht : truthy l.job_title
  · simp only [ht, if_pos, if_true]
    cases nlp with
    | some f => rfl
    | none => rw [← h]
  · simp only [ht, Bool.false_eq_true, not_false_iff, if_false]
    rw [← h]

/-- The record `clean_lead` builds, spelled out field by field. -/
theorem buildLead_fields (php : PhoneFn) (nlp : Option NlpFn) (id now : Str) (r : RawLead) :
    buildLead php nlp id now r =
      { id := id
        full_name := cleanStr r.full_name.join
        first_name := firstNameOf (cleanStr r.full_name.join)
        last_name := lastNameOf (cleanStr r.full_name.join)
        email := normEmail r.email.join
        phone := normPhone php r.phone.join
        company := cleanStr r.company.join
        job_title := cleanStr r.job_title.join
        address :=
          { street := cleanStr (rawAddr r).street.join
            city := cleanStr (rawAddr r).city.join
            postal_code := cleanStr (rawAddr r).postal_code.join
            country := cleanStr (rawAddr r).country.join }
        linkedin_url := normUrl r.linkedin_url.join
        website_url := normUrl r.website_url.join
        industry := indOf (cleanStr r.company.join) (cleanStr r.industry.join)
        company_size := sizOf (cleanStr r.company.join) (cleanStr r.company_size.join)
        last_updated := now ++ "Z".toList
        source := srcOf r.source
        entities := entOf nlp (cleanStr r.job_title.join) } := by
  unfold buildLead
  rw [show applyNameSplit (baseLead php id now r) =
      { baseLead php id now r with
        first_name := firstNameOf (cleanStr r.full_name.join),
        last_name := lastNameOf (cleanStr r.full_name.join) } from rfl]
  rw [enrichCompany_eq]
  rw [applyEntities_eq nlp rfl]
  rfl

theorem indOf_reclean {Cc Ic : Option Str} (hIc : cleanStr Ic = Ic) :
    indOf Cc (cleanStr (indOf Cc Ic)) = indOf Cc Ic := by
  unfold indOf
  cases Cc with
  | none => exact hIc
  | some name =>
    by_cases h1 : name.isEmpty
    · simp only [h1, Bool.not_true, Bool.false_eq_true, if_false]
      exact hIc
    · simp only [h1, Bool.not_false, if_true]
      by_cases h2 : (hasSub "Tech".toList name || hasSub "Software".toList name) = true
      · simp only [h2, if_pos, if_true]
      · simp only [h2, Bool.false_eq_true, not_false_iff, if_false]
        by_cases h3 : hasSub "Startup".toList name = true
        · simp only [h3, if_pos, if_true]
        · simp only [h3, Bool.false_eq_true, not_false_iff, if_false]
          exact hIc

theorem sizOf_reclean {Cc Sc : Option Str} (hSc : cleanStr Sc = Sc) :
    sizOf Cc (cleanStr (sizOf Cc Sc)) = sizOf Cc Sc := by
  unfold sizOf
  cases Cc with
  | none => exact hSc
  | some name =>
    by_cases h1 : name.isEmpty
    · simp only [h1, Bool.not_true, Bool.false_eq_true, if_false]
      exact hSc
    · simp only [h1, Bool.not_false, if_true]
      by_cases h2 : (hasSub "Tech".toList name || hasSub "Software".toList name) = true
      · simp only [h2, if_pos, if_true]
      · simp only [h2, Bool.false_eq_true, not_false_iff, if_false]
        by_cases h3 : hasSub "Startup".toList name = true
        · simp only [h3, if_pos, if_true]
        · simp only [h3, Bool.false_eq_true, not_false_iff, if_false]
          exact hSc

/-- Re-cleaning a cleaned record reproduces it, apart from the fresh id
and timestamp, under `GoodRaw` and a stable phone capability. -/
theorem buildLead_reclean (php : PhoneFn) (nlp : Option NlpFn) (id1 now1 id2 now2 : Str)
    (r : RawLead)
    (hphp : ∀ s t, php s = some t → php t = some t ∧ t ≠ [])
    (hgood : GoodRaw r) :
    buildLead php nlp id2 now2 (toRaw (buildLead php nlp id1 now1 r)) =
      { buildLead php nlp id1 now1 r with id := id2, last_updated := now2 ++ "Z".toList } := by
  obtain ⟨g1, g2, g3, g4, g5, g6, g7, g8, g9⟩ := hgood
  rw [buildLead_fields php nlp id1 now1 r]
  rw [buildLead_fields php nlp id2 now2]
  simp only [CanonicalLead.mk.injEq, Address.mk.injEq]
  refine ⟨trivial, ?_, ?_, ?_, ?_, ?_, ?_, ?_, ⟨?_, ?_, ?_, ?_⟩, ?_, ?_, ?_, ?_, trivial, rfl, ?_⟩
  · exact cleanStr_idem g1
  · show firstNameOf (cleanStr (cleanStr r.full_name.join)) = _
    rw [cleanStr_idem g1]
  · show lastNameOf (cleanStr (cleanStr r.full_name.join)) = _
    rw [cleanStr_idem g1]
  · exact normEmail_idem r.email.join
  · exact normPhone_idem hphp r.phone.join
  · exact cleanStr_idem g2
  · exact cleanStr_idem g3
  · exact cleanStr_idem g6
  · exact cleanStr_idem g7
  · exact cleanStr_idem g8
  · exact cleanStr_idem g9
  · exact normUrl_idem r.linkedin_url.join
  · exact normUrl_idem r.website_url.join
  · show indOf (cleanStr (cleanStr r.company.join))
        (cleanStr (indOf (cleanStr r.company.join) (cleanStr r.industry.join))) = _
    rw [cleanStr_idem g2]
    exact indOf_reclean (cleanStr_idem g4)
  · show sizOf (cleanStr (cleanStr r.company.join))
        (cleanStr (sizOf (cleanStr r.company.join) (cleanStr r.company_size.join))) = _
    rw [cleanStr_idem g2]
    exact sizOf_reclean (cleanStr_idem g5)
  · show entOf nlp (cleanStr (cleanStr r.job_title.join)) = _
    rw [cleanStr_idem g3]

/-- C1: the claim says `clean_lead` terminates normally on every raw
mapping, including one whose `address` field is `null`.  The code does
not: `raw_lead.get("address", {})` returns `None` for a present-but-null
key, and `None.get("street")` raises `AttributeError` (line 40).  This
theorem evaluates the embedding at that failing input. -/

theorem c1_clean_lead_null_address :
    cleanLead (fun _ => none) none [] [] { address := some none } =
      .error "AttributeError: NoneType object has no attribute get" := rfl

/-- C2 counterexample: two records whose only key field is absent have
an entirely-empty composite key, and `deduplicate` drops BOTH (`if key
and key not in seen` appends nothing for a falsy key), so the output has
0 records where the claim promises all 2. -/
theorem c2_counterexample :
    deduplicate [[], []] (some ["email".toList]) = [] := by decide

/-- C2 (amended): a record whose composite key is entirely empty is
always dropped by `deduplicate`, never kept: with a single key field,
N records all of whose key fields are empty or missing produce an empty
output. -/
theorem c2_empty_key_dropped (f : Str) (leads : List DRec)
    (h : ∀ r ∈ leads, dedupComp r f = []) :
    deduplicate leads (some [f]) = [] := by
  have haux : ∀ (ls : List DRec), (∀ r ∈ ls, dedupComp r f = []) →
      ∀ seen, dedupGo [f] ls seen = [] := by
    intro ls
    induction ls with
    | nil => intro _ _; rfl
    | cons r rs ih =>
      intro hh seen
      have hr : dedupComp r f = [] := hh r (List.mem_cons_self _ _)
      have hkey : dedupKey [f] r = [] := by
        simp [dedupKey, joinU, hr]
      simp only [dedupGo, hkey]
      simp only [List.isEmpty_nil, Bool.not_true, Bool.false_and, Bool.false_eq_true, if_false]
      exact ih (fun r' hr' => hh r' (List.mem_cons_of_mem _ hr')) seen
  exact haux leads h []

/-- C2 witness: one record with an empty-string email is dropped. -/
theorem c2_empty_key_dropped_witness :
    deduplicate [[("email".toList, DVal.dstr [])]] (some ["email".toList]) = [] :=
  c2_empty_key_dropped "email".toList _ (by decide)

/-- C3 counterexample: cleaning is not idempotent on every input.  For
`full_name = "a & b"`, the first clean collapses whitespace and then
deletes the `&`, leaving the double space `"a  b"`; the second clean
collapses that run to `"a b"`, so the two cleans disagree on
`full_name`. -/
theorem c3_counterexample :
    cleanLead (fun _ => none) none [] [] { full_name := some (some "a & b".toList) } =
      .ok (buildLead (fun _ => none) none [] [] { full_name := some (some "a & b".toList) }) ∧
    (buildLead (fun _ => none) none [] []
        { full_name := some (some "a & b".toList) }).full_name = some "a  b".toList ∧
    (buildLead (fun _ => none) none [] []
        (toRaw (buildLead (fun _ => none) none [] []
          { full_name := some (some "a & b".toList) }))).full_name =
      some "a b".toList := by
  refine ⟨rfl, by decide, by decide⟩

/-- C3 (amended): re-cleaning a cleaned record reproduces every field
except the regenerated `id` and `last_updated`, provided the raw string
fields contain only characters of the kept class (so `_clean_str`'s
deletion step is inert — the counterexample shows the restriction is
needed) and the external phone normalizer is stable on its own outputs
(E.164 round-tripping). -/
theorem c3_clean_idem (php : PhoneFn) (nlp : Option NlpFn) (id1 now1 id2 now2 : Str)
    (r : RawLead) (lead : CanonicalLead)
    (hphp : ∀ s t, php s = some t → php t = some t ∧ t ≠ [])
    (hgood : GoodRaw r)
    (h : cleanLead php nlp id1 now1 r = .ok lead) :
    cleanLead php nlp id2 now2 (toRaw lead) =
      .ok { lead with id := id2, last_updated := now2 ++ "Z".toList } := by
  unfold cleanLead at h ⊢
  by_cases ha : r.address = some none
  · rw [if_pos ha] at h; cases h
  · rw [if_neg ha] at h
    have hL : lead = buildLead php nlp id1 now1 r := by
      injection h with h'
      exact h'.symm
    subst hL
    rw [if_neg (by simp [toRaw])]
    rw [buildLead_reclean php nlp id1 now1 id2 now2 r hphp hgood]

/-- C3 witness: the empty raw mapping satisfies `GoodRaw`, and the
constant-`none` phone capability is stable. -/
theorem c3_clean_idem_witness :
    cleanLead (fun _ => none) none "a".toList "t1".toList {} =
      .ok (buildLead (fun _ => none) none "a".toList "t1".toList {}) ∧
    cleanLead (fun _ => none) none "b".toList "t2".toList
        (toRaw (buildLead (fun _ => none) none "a".toList "t1".toList {})) =
      .ok { buildLead (fun _ => none) none "a".toList "t1".toList {} with
            id := "b".toList, last_updated := "t2".toList ++ "Z".toList } :=
  ⟨rfl,
   c3_clean_idem (fun _ => none) none "a".toList "t1".toList "b".toList "t2".toList {} _
     (fun _ _ ht => nomatch ht)
     (by refine ⟨?_, ?_, ?_, ?_, ?_, ?_, ?_, ?_, ?_⟩ <;> exact fun _ hs => nomatch hs)
     rfl⟩

/-- C4 counterexample: a non-null `_clean_str` result can contain a run
of two whitespace characters: the deletion step runs after the collapse,
so `"a & b"` cleans to `"a  b"`. -/
theorem c4_counterexample :
    cleanStr (some "a & b".toList) = some "a  b".toList ∧
    noAdjSpc "a  b".toList = false := by decide

/-- C4 (amended): a non-null `_clean_str` result is the input with
whitespace runs collapsed, then trimmed, then disallowed characters
deleted, and it contains only characters of the kept class; the trimmed
and no-whitespace-run guarantees hold when the input had no disallowed
characters (the deletion step can otherwise create new runs or edge
whitespace). -/
theorem c4_clean_string (s t : Str) (h : cleanStr (some s) = some t) :
    t = (pstrip (collapse s)).filter allowedChar ∧
    t.all allowedChar = true ∧
    (s.all allowedChar = true →
      headNotSpc t = true ∧ lastNotSpc t = true ∧ noAdjSpc t = true) := by
  have ht : t = cleanStrCore s := by
    unfold cleanStr at h
    simp only at h
    by_cases he : (cleanStrCore s).isEmpty
    · simp [he] at h
    · simp only [he, Bool.false_eq_true, not_false_iff, if_false, Option.some.injEq] at h
      exact h.symm
  subst ht
  refine ⟨rfl, ?_, ?_⟩
  · simp only [cleanStrCore, List.all_eq_true]
    exact fun c hc => List.of_mem_filter hc
  · intro hs
    rw [cleanStrCore_of_allowed hs]
    exact ⟨pstrip_headNotSpc _, pstrip_lastNotSpc _, pstrip_noAdj (collapse_noAdj s)⟩

/-- C4 witness: `" a  b "` cleans to `"a b"`, which satisfies all the
stated invariants. -/
theorem c4_clean_string_witness :
    "a b".toList = (pstrip (collapse " a  b ".toList)).filter allowedChar ∧
    ("a b".toList).all allowedChar = true ∧
    (" a  b ".toList.all allowedChar = true →
      headNotSpc "a b".toList = true ∧ lastNotSpc "a b".toList = true ∧
      noAdjSpc "a b".toList = true) :=
  c4_clean_string " a  b ".toList "a b".toList (by decide)

/-- C5: deduplication on `["email"]` of records with emails `a@x.com`,
`A@X.COM`, `b@x.com` keeps exactly the first occurrence and `b@x.com`,
in input order: components are lower-cased before comparison. -/
theorem c5_dedup_case_insensitive :
    deduplicate
      [[("email".toList, DVal.dstr "a@x.com".toList)],
       [("email".toList, DVal.dstr "A@X.COM".toList)],
       [("email".toList, DVal.dstr "b@x.com".toList)]]
      (some ["email".toList]) =
      [[("email".toList, DVal.dstr "a@x.com".toList)],
       [("email".toList, DVal.dstr "b@x.com".toList)]] := by decide

/-- C6: `_enrich_company` on a record with a non-null company name:
the Tech/Software rule wins first and sets industry `IT & Software` and
size `51-200 employees`; otherwise the Startup rule sets
`Innovation & Technology` and `11-50 employees`; otherwise the record is
returned unchanged — and in every case no other field is modified. -/
theorem c6_enrich_priority (l : CanonicalLead) (s : Str) (h : l.company = some s) :
    ((hasSub "Tech".toList s || hasSub "Software".toList s) = true →
      enrichCompany l = { l with industry := some "IT & Software".toList,
                                 company_size := some "51-200 employees".toList }) ∧
    ((hasSub "Tech".toList s || hasSub "Software".toList s) = false →
      hasSub "Startup".toList s = true →
      enrichCompany l = { l with industry := some "Innovation & Technology".toList,
                                 company_size := some "11-50 employees".toList }) ∧
    ((hasSub "Tech".toList s || hasSub "Software".toList s) = false →
      hasSub "Startup".toList s = false →
      enrichCompany l = l) := by
  unfold enrichCompany
  rw [h]
  refine ⟨?_, ?_, ?_⟩
  · intro hm
    have hprop : hasSub ['T', 'e', 'c', 'h'] s = true ∨
        hasSub ['S', 'o', 'f', 't', 'w', 'a', 'r', 'e'] s = true := by
      simpa using hm
    have hne : s.isEmpty = false := by
      cases s with
      | nil => exact absurd hm (by decide)
      | cons _ _ => rfl
    simp [hne, hprop]
  · intro hm hst
    have h12 : hasSub ['T', 'e', 'c', 'h'] s = false ∧
        hasSub ['S', 'o', 'f', 't', 'w', 'a', 'r', 'e'] s = false := by
      simpa using hm
    have hst' : hasSub ['S', 't', 'a', 'r', 't', 'u', 'p'] s = true := hst
    have hne : s.isEmpty = false := by
      cases s with
      | nil => exact absurd hst (by decide)
      | cons _ _ => rfl
    simp [hne, h12.1, h12.2, hst']
  · intro hm hst
    by_cases hne : s.isEmpty
    · simp [hne]
    · have h12 : hasSub ['T', 'e', 'c', 'h'] s = false ∧
          hasSub ['S', 'o', 'f', 't', 'w', 'a', 'r', 'e'] s = false := by
        simpa using hm
      have hst' : hasSub ['S', 't', 'a', 'r', 't', 'u', 'p'] s = false := hst
      simp [hne, h12.1, h12.2, hst']

/-- C6 witness: `"Acme Tech Inc"` triggers the first rule. -/
theorem c6_enrich_priority_witness :
    enrichCompany sampleTechLead =
      { sampleTechLead with industry := some "IT & Software".toList,
                            company_size := some "51-200 employees".toList } :=
  (c6_enrich_priority sampleTechLead "Acme Tech Inc".toList rfl).1 (by decide)

/-- C7 counterexample: a batch containing a lead whose `address` is
`null` makes `clean_dataset` raise instead of returning a list of the
input's length. -/
theorem c7_counterexample :
    cleanDataset (fun _ => none) none (fun _ => []) [] [{ address := some none }] =
      .error "AttributeError: NoneType object has no attribute get" := rfl

theorem cleanDatasetGo_ok (php : PhoneFn) (nlp : Option NlpFn) (ids : Nat → Str) (now : Str) :
    ∀ (leads : List RawLead) (k : Nat), (∀ r ∈ leads, r.address ≠ some none) →
    cleanDatasetGo php nlp ids now leads k =
      .ok (leads.mapIdx fun i r => buildLead php nlp (ids (2 * (k + i) + 1)) now r) := by
  intro leads
  induction leads with
  | nil => intro k _; rfl
  | cons r rs ih =>
    intro k h
    have hr : r.address ≠ some none := h r (List.mem_cons_self _ _)
    have e1 : cleanLead php nlp (ids (2 * k)) now r =
        .ok (buildLead php nlp (ids (2 * k)) now r) := by
      unfold cleanLead; rw [if_neg hr]
    have e2 : cleanLead php nlp (ids (2 * k + 1)) now r =
        .ok (buildLead php nlp (ids (2 * k + 1)) now r) := by
      unfold cleanLead; rw [if_neg hr]
    have e3 := ih (k + 1) (fun r' hr' => h r' (List.mem_cons_of_mem _ hr'))
    simp only [cleanDatasetGo, e1, e2, e3, leadTruthy, if_true]
    rw [List.mapIdx_cons]
    have harith : (fun i (r' : RawLead) =>
        buildLead php nlp (ids (2 * (k + 1 + i) + 1)) now r') =
        (fun i (r' : RawLead) => buildLead php nlp (ids (2 * (k + (i + 1)) + 1)) now r') := by
      funext i r'
      have : 2 * (k + 1 + i) + 1 = 2 * (k + (i + 1)) + 1 := by ring
      rw [this]
    rw [harith]
    rfl

/-- C7 (amended): on a batch none of whose leads binds `address` to
`null`, `clean_dataset` returns a list of the input's length whose i-th
element is the cleaned form of the i-th input (built with the second of
the two per-element uuid draws, since the comprehension cleans twice). -/
theorem c7_clean_dataset (php : PhoneFn) (nlp : Option NlpFn) (ids : Nat → Str) (now : Str)
    (leads : List RawLead) (h : ∀ r ∈ leads, r.address ≠ some none) :
    cleanDataset php nlp ids now leads =
      .ok (leads.mapIdx fun i r => buildLead php nlp (ids (2 * i + 1)) now r) ∧
    (leads.mapIdx fun i r => buildLead php nlp (ids (2 * i + 1)) now r).length =
      leads.length := by
  constructor
  · have := cleanDatasetGo_ok php nlp ids now leads 0 h
    simpa using this
  · exact List.length_mapIdx

/-- C7 witness: a one-element batch of the empty raw mapping. -/
theorem c7_clean_dataset_witness :
    cleanDataset (fun _ => none) none (fun _ => []) [] [{}] =
      .ok ([({} : RawLead)].mapIdx fun i r =>
        buildLead (fun _ => none) none ((fun _ : Nat => ([] : Str)) (2 * i + 1)) [] r) ∧
    ([({} : RawLead)].mapIdx fun i r =>
        buildLead (fun _ => none) none ((fun _ : Nat => ([] : Str)) (2 * i + 1)) [] r).length =
      [({} : RawLead)].length :=
  c7_clean_dataset (fun _ => none) none (fun _ => []) [] [{}]
    (fun r hr => by
      simp only [List.mem_singleton] at hr
      subst hr
      exact fun hcon => nomatch hcon)

/-- C8: a directory with one valid single-object `.json` file and one
corrupt `.json` file produces output only for the valid file — the
parse failure is caught and the loop `continue`s — and the run ends
normally (`.ok`). -/
theorem c8_batch_skips_corrupt :
    processAllJson (fun _ => none) none (fun _ _ => []) []
      [⟨"good.json".toList, .ok (.jobj {})⟩,
       ⟨"bad.json".toList, .error "Expecting value".toList⟩] =
      .ok [("good.json".toList,
        [leadToDRec (buildLead (fun _ => none) none [] [] {})])] := by
  rfl

/-- C9: every record `clean_lead` returns carries exactly the fifteen
top-level keys in dict order, with `entities` appended exactly when the
cleaned job title is truthy and the NLP capability is loaded; the
`address` value is an object with exactly the four nested keys. -/
theorem c9_record_shape (php : PhoneFn) (nlp : Option NlpFn) (id now : Str)
    (r : RawLead) (lead : CanonicalLead) (h : cleanLead php nlp id now r = .ok lead) :
    (leadToDRec lead).map Prod.fst =
      ["id".toList, "full_name".toList, "first_name".toList, "last_name".toList,
       "email".toList, "phone".toList, "company".toList, "job_title".toList,
       "address".toList, "linkedin_url".toList, "website_url".toList,
       "industry".toList, "company_size".toList, "last_updated".toList, "source".toList]
      ++ (if lead.entities.isSome then ["entities".toList] else []) ∧
    (lead.entities.isSome = true ↔ (truthy lead.job_title = true ∧ nlp.isSome = true)) ∧
    (addrToDRec lead.address).map Prod.fst =
      ["street".toList, "city".toList, "postal_code".toList, "country".toList] := by
  refine ⟨?_, ?_, rfl⟩
  · cases he : lead.entities with
    | none => simp [leadToDRec, he]
    | some e => simp [leadToDRec, he]
  · unfold cleanLead at h
    by_cases ha : r.address = some none
    · rw [if_pos ha] at h; cases h
    · rw [if_neg ha] at h
      have hL : lead = buildLead php nlp id now r := by
        injection h with h'
        exact h'.symm
      subst hL
      rw [buildLead_fields]
      show (entOf nlp (cleanStr r.job_title.join)).isSome = true ↔ _
      unfold entOf
      by_cases ht : truthy (cleanStr (r.job_title.bind fun a => a))
      · cases nlp with
        | some f => simp [ht]
        | none => simp [ht]
      · simp [ht]

/-- C9 witness: a raw lead with a job title, cleaned with a loaded NLP
capability, carries the `entities` key. -/
theorem c9_record_shape_witness :
    (leadToDRec (buildLead (fun _ => none) (some fun _ => [])
        [] [] { job_title := some (some "CEO".toList) })).map Prod.fst =
      ["id".toList, "full_name".toList, "first_name".toList, "last_name".toList,
       "email".toList, "phone".toList, "company".toList, "job_title".toList,
       "address".toList, "linkedin_url".toList, "website_url".toList,
       "industry".toList, "company_size".toList, "last_updated".toList, "source".toList]
      ++ (if (buildLead (fun _ => none) (some fun _ => [])
            [] [] { job_title := some (some "CEO".toList) }).entities.isSome then
          ["entities".toList] else []) ∧
    ((buildLead (fun _ => none) (some fun _ => [])
        [] [] { job_title := some (some "CEO".toList) }).entities.isSome = true ↔
      (truthy (buildLead (fun _ => none) (some fun _ => [])
        [] [] { job_title := some (some "CEO".toList) }).job_title = true ∧
       (some fun _ : Str => ([] : List (Str × Str))).isSome = true)) ∧
    (addrToDRec (buildLead (fun _ => none) (some fun _ => [])
        [] [] { job_title := some (some "CEO".toList) }).address).map Prod.fst =
      ["street".toList, "city".toList, "postal_code".toList, "country".toList] :=
  c9_record_shape (fun _ => none) (some fun _ => []) [] []
    { job_title := some (some "CEO".toList) } _ rfl

/-- C10: the `"Unknown"` default of `raw_lead.get("source", "Unknown")`
applies only when the `source` key is absent; a `source` key bound to
`null` yields a `null` source field. -/
theorem c10_source_null_vs_absent (php : PhoneFn) (nlp : Option NlpFn) (id now : Str)
    (r : RawLead) (lead : CanonicalLead) (h : cleanLead php nlp id now r = .ok lead) :
    (r.source = some none → lead.source = none) ∧
    (r.source = none → lead.source = some "Unknown".toList) := by
  unfold cleanLead at h
  by_cases ha : r.address = some none
  · rw [if_pos ha] at h; cases h
  · rw [if_neg ha] at h
    have hL : lead = buildLead php nlp id now r := by
      injection h with h'
      exact h'.symm
    subst hL
    rw [buildLead_fields]
    constructor
    · intro hs
      show srcOf r.source = none
      rw [hs]
      rfl
    · intro hs
      show srcOf r.source = some "Unknown".toList
      rw [hs]
      rfl

/-- C10 witness: a raw mapping with `source` bound to `null` cleans to a
`null` source. -/
theorem c10_source_null_vs_absent_witness :
    (({ source := some none } : RawLead).source = some none →
      (buildLead (fun _ => none) none [] [] { source := some none }).source = none) ∧
    (({ source := some none } : RawLead).source = none →
      (buildLead (fun _ => none) none [] [] { source := some none }).source =
        some "Unknown".toList) :=
  c10_source_null_vs_absent (fun _ => none) none [] [] { source := some none } _ rfl
